import Mathlib

/-!
Verification of the import-tree flattener of `evcxr` (`src/evcxr/src/use_trees.rs`).

The module under verification walks a parsed `use`-tree (as produced by the
`ra_ap_syntax` parser), accumulating a path as it descends, and emits one
`Import` record per leaf through a callback.  Here the syntax-tree types are
embedded shallowly: each `Option`-returning accessor of the external AST
(`path()`, `segment()`, `qualifier()`, `name_ref()`, `kind()`,
`use_tree_list()`, `rename()`, `star_token()`, `underscore_token()`) becomes an
`Option`-valued field, token texts become `String`s, and the callback-based
traversal becomes a function returning `Option (List Import)` where `none`
models the `unwrap` panic of the plain-leaf branch and `some records` models a
completed traversal with the records listed in emission order.
-/

namespace UseTrees

/-- Token text type of `ra_ap_syntax` (`SmolStr`); embedded as `String`. -/
abbrev SmolStr := String

/-- Kinds of path segment the parser distinguishes (`ast::PathSegmentKind`).
The flattener only compares against `selfKw`; a plain identifier segment has
kind `name`, while keyword segments (`crate`, `super`, `self`, `Self`) carry
no name token. -/
inductive PathSegmentKind where
  | name
  | selfKw
  | selfTypeKw
  | superKw
  | crateKw
deriving DecidableEq, Repr

/-- One segment of a path (`ast::PathSegment`): its optional kind
(`segment.kind()`) and the text of its optional plain-name token
(`segment.name_ref()`); a keyword segment such as `crate` or `super` has
`nameRef = none`. -/
structure PathSegment where
  kind : Option PathSegmentKind
  nameRef : Option SmolStr
deriving DecidableEq, Repr

/-- A possibly-qualified path (`ast::Path`): `qualifier()` is the path up to
the last `::`, `segment()` the final segment.  `p::q::self` is
`mk (some (mk (some (mk none p)) q)) self`. -/
inductive Path where
  | mk (qualifier : Option Path) (segment : Option PathSegment)

/-- Accessor mirroring `ast::Path::segment()`. -/
def Path.segment : Path → Option PathSegment
  | .mk _ s => s

/-- Accessor mirroring `ast::Path::qualifier()`. -/
def Path.qualifier : Path → Option Path
  | .mk q _ => q

/-- A rename clause `as x` or `as _` (`ast::Rename`): the optional plain name
(`NameOwner::name`) and the text of the optional underscore token
(`rename.underscore_token()`, `"_"` in any tree the parser produces). -/
structure Rename where
  name : Option SmolStr
  underscoreToken : Option SmolStr
deriving DecidableEq, Repr

mutual

/-- A node of a `use`-tree (`ast::UseTree`): optional path, optional nested
group (`use_tree_list()`), optional rename, and the text of the optional glob
token (`star_token()`, `"*"` in any tree the parser produces). -/
inductive UseTree where
  | mk (path : Option Path) (useTreeList : Option UseTreeList)
       (rename : Option Rename) (starToken : Option SmolStr)

/-- The children of a group, in textual order (`UseTreeList::use_trees()`). -/
inductive UseTreeList where
  | nil
  | cons (t : UseTree) (ts : UseTreeList)

end

/-- Output record of the flattener (`enum Import`): `Unnamed` for bindings
that introduce no usable name (`use x as _;`, `use x::*;`), `Named` for
bindings that do (`use x::y;`, `use x::y as z;`). -/
inductive Import where
  | Unnamed (code : String)
  | Named (name : String) (code : String)
deriving DecidableEq, Repr

/-- The regenerated source text carried by a record. -/
def Import.code : Import → String
  | .Unnamed c => c
  | .Named _ c => c

/-- Rust's `[String]::join(sep)`: concatenate with `sep` between elements. -/
def join (sep : String) : List String → String
  | [] => ""
  | [a] => a
  | a :: rest => a ++ sep ++ join sep rest

/-- `Import::format(name, path)`: join `path` with `::`; regenerate
`use path;` when `name` is the last segment of `path` and
`use path as name;` otherwise; classify as `Unnamed` when the name is `"_"`
or `"*"` and as `Named` otherwise. -/
def Import.format (nm : SmolStr) (path : List SmolStr) : Import :=
  let joinedPath := join "::" path
  let code := if path.getLast? = some nm
    then "use " ++ joinedPath ++ ";"
    else "use " ++ joinedPath ++ " as " ++ nm ++ ";"
  if nm = "_" ∨ nm = "*" then .Unnamed code
  else .Named nm code

/-- The segment-collection loop of `process_use_tree`: starting from the whole
path, push the current segment's `name_ref` text (if any) and step to the
qualifier; stop when the current path has no segment or no qualifier.  The
result is in leaf-to-root order, exactly as `path_parts` is before the
`reverse()` call in the source. -/
def collectParts : Path → List SmolStr
  | .mk qual seg =>
    match seg with
    | none => []
    | some s =>
      (match s.nameRef with | some n => [n] | none => []) ++
      (match qual with | some q => collectParts q | none => [])

mutual

/-- `process_use_tree(use_tree, prefix, out)`.  A node without a path emits
nothing.  A node whose path's final segment is the `self` keyword emits one
record from the accumulated prefix alone (nothing when it is empty) and does
not recurse.  Otherwise the named segments of the path are collected,
reversed, and appended to the prefix; then: a nested group is traversed child
by child; a rename emits one record under the rename's name or underscore
token; a glob emits one record under the star token with the token appended
to the path; a plain leaf emits one record under the last accumulated
segment, where `none` models the `unwrap` panic when no segment was
accumulated. -/
def processUseTree : UseTree → List SmolStr → Option (List Import)
  | .mk none _ _ _, _ => some []
  | .mk (some path) treeList rn star, pre =>
    if path.segment.bind PathSegment.kind = some PathSegmentKind.selfKw then
      match pre.getLast? with
      | some last => some [Import.format last pre]
      | none => some []
    else
      let newPre := pre ++ (collectParts path).reverse
      match treeList with
      | some l => processList l newPre
      | none =>
        match rn with
        | some r =>
          match r.name with
          | some nm => some [Import.format nm newPre]
          | none =>
            match r.underscoreToken with
            | some u => some [Import.format u newPre]
            | none => some []
        | none =>
          match star with
          | some starTok => some [Import.format starTok (newPre ++ [starTok])]
          | none =>
            match newPre.getLast? with
            | some last => some [Import.format last newPre]
            | none => none

/-- The `for subtree in tree_list.use_trees()` loop: process the children in
textual order, concatenating their emissions; a panic in any child aborts the
whole traversal. -/
def processList : UseTreeList → List SmolStr → Option (List Import)
  | .nil, _ => some []
  | .cons t ts, pre =>
    match processUseTree t pre with
    | none => none
    | some a =>
      match processList ts pre with
      | none => none
      | some b => some (a ++ b)

end

/-- `use_tree_names_do(use_tree, out)`: run the traversal from the empty
prefix. -/
def useTreeNamesDo (t : UseTree) : Option (List Import) :=
  processUseTree t []

/-! Concrete syntax trees, written exactly as `ra_ap_syntax` parses the
corresponding statements. -/

/-- A plain identifier segment. -/
def segOf (s : String) : PathSegment := ⟨some PathSegmentKind.name, some s⟩

/-- The `self` keyword segment: kind `selfKw`, no plain-name token. -/
def selfSeg : PathSegment := ⟨some PathSegmentKind.selfKw, none⟩

/-- The `crate` keyword segment: kind `crateKw`, no plain-name token. -/
def crateSeg : PathSegment := ⟨some PathSegmentKind.crateKw, none⟩

/-- A one-segment path `a`. -/
def path1 (a : String) : Path := .mk none (some (segOf a))

/-- A two-segment path `a::b`. -/
def path2 (a b : String) : Path := .mk (some (path1 a)) (some (segOf b))

/-- The tree of `use p::q::self;`: a single node whose path is `p::q::self`,
with no group, rename or glob. -/
def treePQSelf : UseTree :=
  .mk (some (.mk (some (path2 "p" "q")) (some selfSeg))) none none none

/-- The tree of `use self;`: a single node whose path is the bare `self`
segment. -/
def treeSelf : UseTree :=
  .mk (some (.mk none (some selfSeg))) none none none

/-- The tree of `use foo::bar::*;`. -/
def treeGlob : UseTree :=
  .mk (some (path2 "foo" "bar")) none none (some "*")

/-- The tree of `use crate::foo;`: path `crate::foo` whose qualifier segment
is the `crate` keyword. -/
def treeCrateFoo : UseTree :=
  .mk (some (.mk (some (.mk none (some crateSeg))) (some (segOf "foo")))) none none none

/-- The tree of
`use std::collections::{self, hash_map::{HashMap}, HashSet as MyHashSet};`. -/
def treeC3 : UseTree :=
  .mk (some (path2 "std" "collections"))
    (some (.cons (.mk (some (.mk none (some selfSeg))) none none none)
      (.cons (.mk (some (path1 "hash_map"))
          (some (.cons (.mk (some (path1 "HashMap")) none none none) .nil)) none none)
        (.cons (.mk (some (path1 "HashSet")) none (some ⟨some "MyHashSet", none⟩) none)
          .nil))))
    none none

/-! Analysis definitions used to state the claims. -/

mutual

/-- Number of leaves of a tree, a leaf being a node with no nested group. -/
def countLeaves : UseTree → Nat
  | .mk _ none _ _ => 1
  | .mk _ (some l) _ _ => countLeavesList l

/-- Total number of leaves of the trees of a list. -/
def countLeavesList : UseTreeList → Nat
  | .nil => 0
  | .cons t ts => countLeaves t + countLeavesList ts

end

mutual

/-- Well-formedness of a node relative to the path accumulated on the way to
it: the node has a path; when the path ends in the `self` keyword the node
has no nested group and the accumulated path is nonempty; a rename carries a
name or an underscore token; a plain leaf has a nonempty accumulated path
(so the `unwrap` of the source cannot panic). -/
def good : UseTree → List SmolStr → Bool
  | .mk none _ _ _, _ => false
  | .mk (some p) (some l) _ _, pre =>
    if p.segment.bind PathSegment.kind = some PathSegmentKind.selfKw then false
    else goodList l (pre ++ (collectParts p).reverse)
  | .mk (some p) none (some r) _, pre =>
    if p.segment.bind PathSegment.kind = some PathSegmentKind.selfKw then !pre.isEmpty
    else r.name.isSome || r.underscoreToken.isSome
  | .mk (some p) none none (some _), pre =>
    if p.segment.bind PathSegment.kind = some PathSegmentKind.selfKw then !pre.isEmpty
    else true
  | .mk (some p) none none none, pre =>
    if p.segment.bind PathSegment.kind = some PathSegmentKind.selfKw then !pre.isEmpty
    else !(pre ++ (collectParts p).reverse).isEmpty

/-- Well-formedness of every tree of a list. -/
def goodList : UseTreeList → List SmolStr → Bool
  | .nil, _ => true
  | .cons t ts, pre => good t pre && goodList ts pre

end

/-- The segments visited by the collection loop of `process_use_tree`, in
leaf-to-root order: the loop starts at the full path and steps to the
qualifier, stopping at a path with no segment or no qualifier. -/
def segChain : Path → List PathSegment
  | .mk qual seg =>
    match seg with
    | none => []
    | some s => s :: (match qual with | some q => segChain q | none => [])

/-! Claim theorems. -/

/-- C1, counterexample: flattening the tree of `use p::q::self;` does not
yield the single record `Named "q" "use p::q;"` that the claim demands: the
`self` branch fires on the path's final segment before any qualifier is
collected, and at top level the accumulated prefix is still empty. -/
theorem flatten_pq_self_not_named_q :
    ¬ useTreeNamesDo treePQSelf =
      some [Import.Named "q" "use p::q;"] := by decide

/-- C1, amended: flattening the tree of `use p::q::self;` emits no record at
all.  The `self` branch consults only the already-accumulated prefix, which
is empty for a top-level path, so the qualifier `p::q` is discarded and the
degenerate empty-prefix case emits nothing. -/
theorem flatten_pq_self_emits_nothing :
    useTreeNamesDo treePQSelf = some [] := by decide

/-- C3: flattening the tree of
`use std::collections::{self, hash_map::{HashMap}, HashSet as MyHashSet};`
yields exactly the three records of the scenario, in order. -/
theorem flatten_collections_scenario :
    useTreeNamesDo treeC3 = some
      [Import.Named "collections" "use std::collections;",
       Import.Named "HashMap" "use std::collections::hash_map::HashMap;",
       Import.Named "MyHashSet" "use std::collections::HashSet as MyHashSet;"] := by
  decide

/-- C6: for every node with a path (one not ending in the `self` keyword,
which the earlier self-elision branch would intercept), no nested group, no
rename and a glob token, the flattener appends the glob token to the
accumulated path and emits exactly one record bound to that token as name;
in particular `use foo::bar::*;` yields exactly
`Unnamed "use foo::bar::*;"`. -/
theorem star_appends_token_and_emits (p : Path) (pre : List SmolStr) (starTok : SmolStr)
    (hself : ¬ p.segment.bind PathSegment.kind = some PathSegmentKind.selfKw) :
    processUseTree (.mk (some p) none none (some starTok)) pre =
      some [Import.format starTok (pre ++ (collectParts p).reverse ++ [starTok])] ∧
    useTreeNamesDo treeGlob = some [Import.Unnamed "use foo::bar::*;"] := by
  refine ⟨?_, by decide⟩
  rw [processUseTree.eq_def]
  simp [hself]

/-- C6, witness: the general statement instantiated at the `use foo::bar::*;`
tree itself. -/
theorem star_appends_token_and_emits_witness :
    processUseTree (.mk (some (path2 "foo" "bar")) none none (some "*")) [] =
      some [Import.format "*" ([] ++ (collectParts (path2 "foo" "bar")).reverse ++ ["*"])] ∧
    useTreeNamesDo treeGlob = some [Import.Unnamed "use foo::bar::*;"] :=
  star_appends_token_and_emits (path2 "foo" "bar") [] "*" (by decide)

/-- C7: a node whose path ends in the `self` keyword, processed with an empty
accumulated prefix, emits no record and does not fault, whatever its group,
rename or glob parts are. -/
theorem self_with_empty_prefix_emits_nothing (p : Path) (tl : Option UseTreeList)
    (rn : Option Rename) (st : Option SmolStr)
    (hself : p.segment.bind PathSegment.kind = some PathSegmentKind.selfKw) :
    processUseTree (.mk (some p) tl rn st) [] = some [] := by
  rw [processUseTree.eq_def]
  simp [hself]

/-- C7, witness: the statement instantiated at the tree of `use self;`. -/
theorem self_with_empty_prefix_emits_nothing_witness :
    processUseTree (.mk (some (.mk none (some selfSeg))) none none none) [] = some [] :=
  self_with_empty_prefix_emits_nothing (.mk none (some selfSeg)) none none none (by decide)

/-- C9: a node without a path emits no record and is not recursed into at
all, whatever its group, rename or glob parts are — the whole dispatch is
guarded on the presence of a path.  In particular children that would fault
are never reached. -/
theorem no_path_emits_nothing (tl : Option UseTreeList) (rn : Option Rename)
    (st : Option SmolStr) (pre : List SmolStr) :
    processUseTree (.mk none tl rn st) pre = some [] := rfl

/-- The code string computed by `Import::format`, as a function of the
rename test `path.last() == Some(name)`. -/
theorem format_code_eq (nm : SmolStr) (path : List SmolStr) :
    (Import.format nm path).code =
      if path.getLast? = some nm then "use " ++ join "::" path ++ ";"
      else "use " ++ join "::" path ++ " as " ++ nm ++ ";" := by
  by_cases h1 : path.getLast? = some nm <;> by_cases h2 : nm = "_" ∨ nm = "*" <;>
    simp [Import.format, Import.code, h1, h2]

/-- Joining space-free segments with `::` yields a space-free string. -/
theorem join_no_space (l : List String) (h : ∀ s ∈ l, ' ' ∉ s.data) :
    ' ' ∉ (join "::" l).data := by
  induction l with
  | nil => simp [join]
  | cons a t ih =>
    cases t with
    | nil => simpa [join] using h a (by simp)
    | cons b t2 =>
      have ha : ' ' ∉ a.data := h a (by simp)
      have hr : ' ' ∉ (join "::" (b :: t2)).data := ih (fun s hs => h s (by simp [hs]))
      simp only [join, String.data_append, List.mem_append]
      push_neg
      exact ⟨⟨ha, by decide⟩, hr⟩

/-- C4: for a name and a nonempty path of space-free tokens, the record
produced by `Import::format` has code `use <path joined with ::>;` when the
name equals the path's last segment and `use <path joined with ::> as
<name>;` when it does not; equivalently, the code contains the substring
`" as "` exactly when the name differs from the path's last segment. -/
theorem format_rename_code (nm : SmolStr) (path : List SmolStr)
    (hne : path ≠ []) (hnm : ' ' ∉ nm.data) (hpath : ∀ s ∈ path, ' ' ∉ s.data) :
    (Import.format nm path).code =
      (if path.getLast? = some nm then "use " ++ join "::" path ++ ";"
       else "use " ++ join "::" path ++ " as " ++ nm ++ ";") ∧
    ((∃ l r, ((Import.format nm path).code).data = l ++ (" as ").data ++ r) ↔
      ¬ path.getLast? = some nm) := by
  refine ⟨format_code_eq nm path, ?_⟩
  by_cases h1 : path.getLast? = some nm
  · refine iff_of_false ?_ (by simp [h1])
    rintro ⟨l, r, heq⟩
    have hj : ' ' ∉ (join "::" path).data := join_no_space path hpath
    have hcode : ((Import.format nm path).code).data.count ' ' = 1 := by
      rw [format_code_eq nm path, if_pos h1]
      simp [String.data_append, List.count_append, List.count_eq_zero.mpr hj]
    have htwo : ((" as ").data).count ' ' = 2 := by decide
    rw [heq, List.count_append, List.count_append, htwo] at hcode
    omega
  · refine iff_of_true ?_ h1
    refine ⟨("use " ++ join "::" path).data, (nm ++ ";").data, ?_⟩
    rw [format_code_eq nm path, if_neg h1]
    simp [String.data_append, List.append_assoc]

/-- C4, witness: the statement instantiated at name `b` and path `a::b`
(a no-rename binding). -/
theorem format_rename_code_witness :
    (Import.format "b" ["a", "b"]).code =
      (if ["a", "b"].getLast? = some "b" then "use " ++ join "::" ["a", "b"] ++ ";"
       else "use " ++ join "::" ["a", "b"] ++ " as " ++ "b" ++ ";") ∧
    ((∃ l r, ((Import.format "b" ["a", "b"]).code).data = l ++ (" as ").data ++ r) ↔
      ¬ ["a", "b"].getLast? = some "b") :=
  format_rename_code "b" ["a", "b"] (by decide) (by decide) (by decide)

/-- C5: `Import::format` classifies every record by the bound name alone —
name `"_"` or `"*"` yields the `Unnamed` variant, any other name yields the
`Named` variant carrying exactly that name. -/
theorem format_classification (nm : SmolStr) (path : List SmolStr) :
    ((nm = "_" ∨ nm = "*") →
      Import.format nm path = Import.Unnamed ((Import.format nm path).code)) ∧
    (¬(nm = "_" ∨ nm = "*") →
      Import.format nm path = Import.Named nm ((Import.format nm path).code)) := by
  constructor <;> intro h <;> simp [Import.format, Import.code, h]

/-- C5, witness: the classification instantiated at the discard marker and at
an ordinary name. -/
theorem format_classification_witness :
    Import.format "_" ["a"] = Import.Unnamed ((Import.format "_" ["a"]).code) ∧
    Import.format "x" ["a"] = Import.Named "x" ((Import.format "x" ["a"]).code) :=
  ⟨(format_classification "_" ["a"]).1 (Or.inl rfl),
   (format_classification "x" ["a"]).2 (by decide)⟩

mutual

/-- On a well-formed node the traversal succeeds and emits exactly one record
per leaf. -/
theorem good_sound (t : UseTree) (pre : List SmolStr) (h : good t pre = true) :
    ∃ res, processUseTree t pre = some res ∧ res.length = countLeaves t := by
  match t with
  | .mk none tl rn st =>
    simp [good] at h
  | .mk (some p) (some l) rn st =>
    simp only [good] at h
    by_cases hs : p.segment.bind PathSegment.kind = some PathSegmentKind.selfKw
    · rw [if_pos hs] at h
      exact absurd h (by simp)
    · rw [if_neg hs] at h
      obtain ⟨res, hres, hlen⟩ := goodList_sound l (pre ++ (collectParts p).reverse) h
      refine ⟨res, ?_, by simp [countLeaves, hlen]⟩
      rw [processUseTree.eq_2]
      simp [hs, hres]
  | .mk (some p) none (some r) st =>
    simp only [good] at h
    by_cases hs : p.segment.bind PathSegment.kind = some PathSegmentKind.selfKw
    · rw [if_pos hs] at h
      match hL : pre.getLast? with
      | none =>
        rw [List.getLast?_eq_none_iff.mp hL] at h
        simp at h
      | some last =>
        refine ⟨[Import.format last pre], ?_, by simp [countLeaves]⟩
        rw [processUseTree.eq_2]
        simp [hs, hL]
    · rw [if_neg hs, Bool.or_eq_true] at h
      match hn : r.name with
      | some nm =>
        refine ⟨[Import.format nm (pre ++ (collectParts p).reverse)], ?_, by simp [countLeaves]⟩
        rw [processUseTree.eq_2]
        simp [hs, hn]
      | none =>
        match hu : r.underscoreToken with
        | some u =>
          refine ⟨[Import.format u (pre ++ (collectParts p).reverse)], ?_, by simp [countLeaves]⟩
          rw [processUseTree.eq_2]
          simp [hs, hn, hu]
        | none =>
          rw [hn, hu] at h
          simp at h
  | .mk (some p) none none (some tok) =>
    simp only [good] at h
    by_cases hs : p.segment.bind PathSegment.kind = some PathSegmentKind.selfKw
    · rw [if_pos hs] at h
      match hL : pre.getLast? with
      | none =>
        rw [List.getLast?_eq_none_iff.mp hL] at h
        simp at h
      | some last =>
        refine ⟨[Import.format last pre], ?_, by simp [countLeaves]⟩
        rw [processUseTree.eq_2]
        simp [hs, hL]
    · refine ⟨[Import.format tok (pre ++ (collectParts p).reverse ++ [tok])], ?_,
        by simp [countLeaves]⟩
      rw [processUseTree.eq_2]
      simp [hs]
  | .mk (some p) none none none =>
    simp only [good] at h
    by_cases hs : p.segment.bind PathSegment.kind = some PathSegmentKind.selfKw
    · rw [if_pos hs] at h
      match hL : pre.getLast? with
      | none =>
        rw [List.getLast?_eq_none_iff.mp hL] at h
        simp at h
      | some last =>
        refine ⟨[Import.format last pre], ?_, by simp [countLeaves]⟩
        rw [processUseTree.eq_2]
        simp [hs, hL]
    · rw [if_neg hs] at h
      match hL : (pre ++ (collectParts p).reverse).getLast? with
      | none =>
        rw [List.getLast?_eq_none_iff.mp hL] at h
        simp at h
      | some last =>
        refine ⟨[Import.format last (pre ++ (collectParts p).reverse)], ?_,
          by simp [countLeaves]⟩
        rw [processUseTree.eq_2]
        simp [hs, hL]

/-- On a list of well-formed children the traversal of every child succeeds
and the emissions concatenate. -/
theorem goodList_sound (l : UseTreeList) (pre : List SmolStr) (h : goodList l pre = true) :
    ∃ res, processList l pre = some res ∧ res.length = countLeavesList l := by
  match l with
  | .nil =>
    exact ⟨[], processList.eq_1 pre, by simp [countLeavesList]⟩
  | .cons t ts =>
    rw [goodList.eq_2, Bool.and_eq_true] at h
    obtain ⟨h1, h2⟩ := h
    obtain ⟨a, ha, hla⟩ := good_sound t pre h1
    obtain ⟨b, hb, hlb⟩ := goodList_sound ts pre h2
    refine ⟨a ++ b, ?_, by simp [countLeavesList, hla, hlb]⟩
    rw [processList.eq_2]
    simp [ha, hb]

end

/-- C2, counterexample: the tree of `use self;` is a single leaf (it has no
nested group), yet flattening it emits zero records, so a leaf does not
always produce exactly one record. -/
theorem leaf_without_record_counterexample :
    useTreeNamesDo treeSelf = some [] ∧ countLeaves treeSelf = 1 := by
  constructor <;> decide

/-- C2, amended: on well-formed input (`good`: every node has a path, a path
ending in the `self` keyword sits on a group-free node and has a nonempty
accumulated path, every rename carries a name or an underscore token, and
every plain leaf has a nonempty accumulated path) flattening succeeds and
emits exactly one record per leaf; the records come in depth-first,
left-to-right order: a non-`self` node with a group delegates to its children
with the extended path, and a child list emits the first child's records
followed by the remaining children's. -/
theorem one_record_per_leaf_in_order :
    (∀ (t : UseTree) (pre : List SmolStr), good t pre = true →
        (processUseTree t pre).map List.length = some (countLeaves t)) ∧
    (∀ (p : Path) (l : UseTreeList) (rn : Option Rename) (st : Option SmolStr)
        (pre : List SmolStr),
        ¬ p.segment.bind PathSegment.kind = some PathSegmentKind.selfKw →
        processUseTree (.mk (some p) (some l) rn st) pre =
          processList l (pre ++ (collectParts p).reverse)) ∧
    (∀ (t : UseTree) (ts : UseTreeList) (pre : List SmolStr),
        processList (.cons t ts) pre =
          (processUseTree t pre).bind (fun a => (processList ts pre).map (fun b => a ++ b))) := by
  refine ⟨?_, ?_, ?_⟩
  · intro t pre h
    obtain ⟨res, hres, hlen⟩ := good_sound t pre h
    rw [hres]
    simp [hlen]
  · intro p l rn st pre hs
    rw [processUseTree.eq_2]
    simp [hs]
  · intro t ts pre
    rw [processList.eq_2]
    cases h1 : processUseTree t pre <;> cases h2 : processList ts pre <;> simp [h1, h2]

/-- C2, witness: the amended statement instantiated at the
`use std::collections::{self, hash_map::{HashMap}, HashSet as MyHashSet};`
tree, which is well-formed and has three leaves. -/
theorem one_record_per_leaf_in_order_witness :
    (processUseTree treeC3 []).map List.length = some (countLeaves treeC3) :=
  one_record_per_leaf_in_order.1 treeC3 [] (by decide)

/-- C8: for a plain leaf (a node with a path not ending in the `self`
keyword, no group, no rename, no glob token) the traversal faults — modelled
by `none`, the image of the source's `unwrap` panic — exactly when the
accumulated path is empty at that point; with a nonempty accumulated path it
emits one record named by the last accumulated segment. -/
theorem plain_leaf_faults_iff_empty (p : Path) (pre : List SmolStr)
    (hself : ¬ p.segment.bind PathSegment.kind = some PathSegmentKind.selfKw) :
    processUseTree (.mk (some p) none none none) pre =
      (match (pre ++ (collectParts p).reverse).getLast? with
       | some last => some [Import.format last (pre ++ (collectParts p).reverse)]
       | none => none) ∧
    (processUseTree (.mk (some p) none none none) pre = none ↔
      pre ++ (collectParts p).reverse = []) := by
  have h1 : processUseTree (.mk (some p) none none none) pre =
      (match (pre ++ (collectParts p).reverse).getLast? with
       | some last => some [Import.format last (pre ++ (collectParts p).reverse)]
       | none => none) := by
    rw [processUseTree.eq_2]
    simp [hself]
  refine ⟨h1, ?_⟩
  rw [h1]
  cases h : (pre ++ (collectParts p).reverse).getLast? with
  | none => simp [h, List.getLast?_eq_none_iff.mp h]
  | some last =>
    have hne : pre ++ (collectParts p).reverse ≠ [] := by
      intro hempty
      rw [hempty] at h
      exact absurd h (by simp)
    simp [h, hne]

/-- C8, witness: the statement instantiated at the tree of `use crate;`,
whose path contributes no named segment, so the accumulated path is empty
and the traversal faults. -/
theorem plain_leaf_faults_iff_empty_witness :
    processUseTree (.mk (some (Path.mk none (some crateSeg))) none none none) [] =
      (match ([] ++ (collectParts (Path.mk none (some crateSeg))).reverse).getLast? with
       | some last =>
         some [Import.format last ([] ++ (collectParts (Path.mk none (some crateSeg))).reverse)]
       | none => none) ∧
    (processUseTree (.mk (some (Path.mk none (some crateSeg))) none none none) [] = none ↔
      [] ++ (collectParts (Path.mk none (some crateSeg))).reverse = []) :=
  plain_leaf_faults_iff_empty (Path.mk none (some crateSeg)) [] (by decide)

/-- The collection loop keeps exactly the `name_ref` texts of the segments it
visits, in order. -/
theorem collectParts_eq_filterMap :
    ∀ p : Path, collectParts p = (segChain p).filterMap PathSegment.nameRef
  | .mk qual seg => by
    cases seg with
    | none => simp [collectParts, segChain]
    | some s =>
      cases qual with
      | none =>
        cases h : s.nameRef <;> simp [collectParts, segChain, List.filterMap_cons, h]
      | some q =>
        have ih := collectParts_eq_filterMap q
        cases h : s.nameRef <;> simp [collectParts, segChain, List.filterMap_cons, h, ih]

/-- C10: when a path is collected into the accumulated prefix, only segments
carrying a plain name token are kept — the collected parts are exactly the
`name_ref` texts of the visited segments, so keyword segments such as `crate`
or `super` are silently dropped; in particular `use crate::foo;` flattens to
the single record `Named "foo" "use foo;"`. -/
theorem collect_keeps_only_named_segments :
    (∀ p : Path, collectParts p = (segChain p).filterMap PathSegment.nameRef) ∧
    useTreeNamesDo treeCrateFoo = some [Import.Named "foo" "use foo;"] :=
  ⟨collectParts_eq_filterMap, by decide⟩

end UseTrees
